import Mathlib

/-!
Verification development for the multi-modal research agent repository.

The Python source is shallowly embedded: pure functions become Lean
functions, the conversation-building agent loop becomes a fuel-indexed
recursive function over an explicit message list, fallible operations
return `Except`/`Option`, and external collaborators (the LLM endpoint,
tool implementations, the filesystem, the embedding model and the vector
store) are passed in as explicit parameters.
-/

namespace ResearchAgent

/-! ## Characters and Python-style strip -/

/-- Whitespace test used by Python's str.strip (modelled by Char.isWhitespace). -/
def wsb (c : Char) : Bool := c.isWhitespace

/-- Python str.strip on a character list: drop whitespace from both ends. -/
def stripChars (l : List Char) : List Char :=
  ((l.dropWhile wsb).reverse.dropWhile wsb).reverse

/-- Python str.strip on a String. -/
def pyStrip (s : String) : String := String.mk (stripChars s.data)

/-- Python str.lower, character by character. -/
def strLower (s : String) : String := String.mk (s.data.map Char.toLower)

/-- Python str.startswith. -/
def strStartsWith (s pre : String) : Bool := pre.data.isPrefixOf s.data

theorem dropWhile_length_le (p : Char → Bool) (l : List Char) :
    (l.dropWhile p).length ≤ l.length := by
  induction l with
  | nil => simp [List.dropWhile]
  | cons a t ih =>
    by_cases h : p a
    · simp [List.dropWhile, h]; omega
    · simp [List.dropWhile, h]

theorem dropWhile_eq_self_of_length (p : Char → Bool) (l : List Char)
    (h : (l.dropWhile p).length = l.length) : l.dropWhile p = l := by
  cases l with
  | nil => simp [List.dropWhile]
  | cons a t =>
    by_cases hp : p a
    · exfalso
      have h1 : (List.dropWhile p t).length ≤ t.length := dropWhile_length_le p t
      simp [List.dropWhile, hp] at h
      omega
    · simp [List.dropWhile, hp]

theorem stripChars_length_le (l : List Char) : (stripChars l).length ≤ l.length := by
  unfold stripChars
  have h1 := dropWhile_length_le wsb l
  have h2 := dropWhile_length_le wsb (l.dropWhile wsb).reverse
  simp only [List.length_reverse] at *
  omega

theorem stripChars_eq_self_of_length (l : List Char)
    (h : (stripChars l).length = l.length) : stripChars l = l := by
  have h1 := dropWhile_length_le wsb l
  have h2 := dropWhile_length_le wsb (l.dropWhile wsb).reverse
  unfold stripChars at h
  simp only [List.length_reverse] at h h2
  have e1 : (l.dropWhile wsb).length = l.length := by omega
  have e2 : ((l.dropWhile wsb).reverse.dropWhile wsb).length =
      (l.dropWhile wsb).reverse.length := by simp only [List.length_reverse]; omega
  have d1 : l.dropWhile wsb = l := dropWhile_eq_self_of_length wsb l e1
  have d2 := dropWhile_eq_self_of_length wsb (l.dropWhile wsb).reverse e2
  unfold stripChars
  rw [d1] at d2 ⊢
  rw [d2, List.reverse_reverse]

theorem stripChars_eq_nil_iff (l : List Char) :
    stripChars l = [] ↔ ∀ c ∈ l, wsb c = true := by
  constructor
  · intro h c hc
    unfold stripChars at h
    rw [List.reverse_eq_nil_iff] at h
    rw [List.dropWhile_eq_nil_iff] at h
    have hmem : ∀ c ∈ l.dropWhile wsb, wsb c = true := by
      intro c hc
      exact h c (by simpa using hc)
    have hsplit : l.takeWhile wsb ++ l.dropWhile wsb = l :=
      List.takeWhile_append_dropWhile wsb l
    rw [← hsplit] at hc
    rcases List.mem_append.mp hc with h1 | h2
    · exact List.mem_takeWhile_imp h1
    · exact hmem c h2
  · intro h
    have : l.dropWhile wsb = [] := List.dropWhile_eq_nil_iff.mpr h
    unfold stripChars
    rw [this]
    simp [List.dropWhile]

theorem stripChars_ne_nil_of_mem (l : List Char) (c : Char) (hc : c ∈ l)
    (hw : wsb c = false) : stripChars l ≠ [] := by
  intro h
  have := (stripChars_eq_nil_iff l).mp h c hc
  rw [hw] at this
  exact Bool.false_ne_true this

/-! ## Chunking engine (rag.py `_chunk_text`)

The source slides a window of `CHUNK_SIZE` characters advancing by
`CHUNK_SIZE - CHUNK_OVERLAP` per step, keeps the strip of every non-blank
window, and stops when the window start reaches the text length.  The
window size and overlap are module constants in the source (800 and 100);
they are parameters `W`, `O` here and the source constants are
instantiated in `chunk_text`. -/

/-- The chunking loop of `_chunk_text`, as well-founded recursion on the
remaining length.  The guard `O < W` mirrors the termination condition of
the source loop (the source does not terminate when `O ≥ W`). -/
def chunkFrom (W O : Nat) (text : List Char) (start : Nat) : List (List Char) :=
  if _h : start < text.length ∧ O < W then
    let c := stripChars ((text.drop start).take W)
    if c = [] then chunkFrom W O text (start + (W - O))
    else c :: chunkFrom W O text (start + (W - O))
  else []
  termination_by text.length - start
  decreasing_by
  · omega

/-- The function `_chunk_text` with explicit window/overlap parameters: the early return
for empty or whitespace-only text, then the loop from start 0. -/
def chunkTextP (W O : Nat) (text : List Char) : List (List Char) :=
  if stripChars text = [] then [] else chunkFrom W O text 0

/-- The function `_chunk_text` with the source constants CHUNK_SIZE = 800, CHUNK_OVERLAP = 100. -/
def chunk_text (text : List Char) : List (List Char) := chunkTextP 800 100 text

/-- The source loop written with explicit fuel and the source's exact start
update `start = (start + W) - O`; `none` means the fuel ran out. -/
def chunkLoopFuel (W O : Nat) (text : List Char) (start : Nat) : Nat → Option (List (List Char))
  | 0 => none
  | fuel + 1 =>
    if start < text.length then
      match chunkLoopFuel W O text (start + W - O) fuel with
      | none => none
      | some rest =>
        let c := stripChars ((text.drop start).take W)
        some (if c = [] then rest else c :: rest)
    else some []

/-- With overlap strictly below the window size, the loop finishes within
`text.length - start + 1` iterations and computes `chunkFrom`. -/
theorem chunkLoopFuel_eq (W O : Nat) (text : List Char) (hOW : O < W) :
    ∀ fuel start, text.length - start < fuel →
      chunkLoopFuel W O text start fuel = some (chunkFrom W O text start) := by
  intro fuel
  induction fuel with
  | zero => intro start h; omega
  | succ n ih =>
    intro start h
    by_cases hs : start < text.length
    · have harith : start + W - O = start + (W - O) := by omega
      have hrec : chunkLoopFuel W O text (start + W - O) n =
          some (chunkFrom W O text (start + (W - O))) := by
        rw [harith]
        exact ih (start + (W - O)) (by omega)
      have hcond : start < text.length ∧ O < W := ⟨hs, hOW⟩
      rw [chunkFrom.eq_def, dif_pos hcond]
      simp only [chunkLoopFuel, hs, if_true, hrec]
    · rw [chunkFrom.eq_def]
      have hcond : ¬(start < text.length ∧ O < W) := by
        intro hcon; exact hs hcon.1
      rw [dif_neg hcond]
      simp [chunkLoopFuel, hs]

theorem chunkFrom_stop (W O : Nat) (text : List Char) (start : Nat)
    (h : ¬(start < text.length ∧ O < W)) : chunkFrom W O text start = [] := by
  rw [chunkFrom.eq_def, dif_neg h]

theorem chunkFrom_step (W O : Nat) (text : List Char) (start : Nat)
    (h : start < text.length ∧ O < W) :
    chunkFrom W O text start =
      if stripChars ((text.drop start).take W) = [] then chunkFrom W O text (start + (W - O))
      else stripChars ((text.drop start).take W) :: chunkFrom W O text (start + (W - O)) := by
  rw [chunkFrom.eq_def, dif_pos h]

/-- Every chunk the loop emits is the non-blank strip of one of the sliding
windows starting at `start + j * (W - O)`. -/
theorem chunkFrom_mem_window (W O : Nat) (text : List Char) :
    ∀ n start, text.length - start < n →
      ∀ c ∈ chunkFrom W O text start,
        c ≠ [] ∧ ∃ j, c = stripChars ((text.drop (start + j * (W - O))).take W) := by
  intro n
  induction n with
  | zero => intro start h; omega
  | succ n ih =>
    intro start h c hc
    by_cases hcond : start < text.length ∧ O < W
    · rw [chunkFrom_step W O text start hcond] at hc
      by_cases hnil : stripChars ((text.drop start).take W) = []
      · rw [if_pos hnil] at hc
        obtain ⟨hne, j, hj⟩ := ih (start + (W - O)) (by omega) c hc
        refine ⟨hne, j + 1, ?_⟩
        rw [hj]
        have harith : start + (W - O) + j * (W - O) = start + (j + 1) * (W - O) := by
          generalize W - O = k
          ring
        rw [harith]
      · rw [if_neg hnil] at hc
        rcases List.mem_cons.mp hc with rfl | hc
        · exact ⟨hnil, 0, by simp⟩
        · obtain ⟨hne, j, hj⟩ := ih (start + (W - O)) (by omega) c hc
          refine ⟨hne, j + 1, ?_⟩
          rw [hj]
          have harith : start + (W - O) + j * (W - O) = start + (j + 1) * (W - O) := by
            generalize W - O = k
            ring
          rw [harith]
    · rw [chunkFrom_stop W O text start hcond] at hc
      cases hc

/-- A list fixed by `dropWhile p` either is empty or starts with a character
failing `p`. -/
theorem dropWhile_eq_self_head (p : Char → Bool) (m : List Char) (hm : 0 < m.length)
    (h : m.dropWhile p = m) : p m[0] = false := by
  cases m with
  | nil => simp at hm
  | cons a t =>
    by_cases hp : p a
    · exfalso
      rw [List.dropWhile_cons, if_pos hp] at h
      have h1 := dropWhile_length_le p t
      have h2 := congrArg List.length h
      simp only [List.length_cons] at h2
      omega
    · simpa using hp

/-- A non-empty list fixed by strip ends with a non-whitespace character. -/
theorem stripChars_fix_last (l : List Char) (h : stripChars l = l) (hl : 0 < l.length) :
    wsb l[l.length - 1] = false := by
  have hlen : (stripChars l).length = l.length := by rw [h]
  have h1 := dropWhile_length_le wsb l
  have h2 := dropWhile_length_le wsb (l.dropWhile wsb).reverse
  unfold stripChars at hlen
  simp only [List.length_reverse] at hlen h2
  have e1 : (l.dropWhile wsb).length = l.length := by omega
  have d1 : l.dropWhile wsb = l := dropWhile_eq_self_of_length wsb l e1
  have hfix : l.reverse.dropWhile wsb = l.reverse := by
    have h' := h
    unfold stripChars at h'
    rw [d1] at h'
    have := congrArg List.reverse h'
    rwa [List.reverse_reverse] at this
  have hr : 0 < l.reverse.length := by simpa using hl
  have hhead := dropWhile_eq_self_head wsb l.reverse hr hfix
  rwa [List.getElem_reverse] at hhead

theorem getElem_idx_congr {α : Type} (l : List α) (i j : Nat) (h : i = j)
    (hi : i < l.length) : l[i] = l[j] := by
  subst h
  rfl

/-- Adjacent chunks that both fill the whole window overlap in exactly `O`
characters: the suffix of the first of length `O` is the prefix of the second. -/
theorem chunkFrom_chain (W O : Nat) (text : List Char) (hO : 0 < O) (hOW : O < W) :
    ∀ n start, text.length - start < n →
      List.Chain' (fun a b => a.length = W → b.length = W → a.drop (W - O) = b.take O)
        (chunkFrom W O text start) := by
  intro n
  induction n with
  | zero => intro start h; omega
  | succ n ih =>
    intro start h
    by_cases hcond : start < text.length ∧ O < W
    · rw [chunkFrom_step W O text start hcond]
      by_cases hnil : stripChars ((text.drop start).take W) = []
      · rw [if_pos hnil]
        exact ih (start + (W - O)) (by omega)
      · rw [if_neg hnil]
        rw [List.chain'_cons']
        refine ⟨?_, ih (start + (W - O)) (by omega)⟩
        intro y hy hcW hyW
        -- The head chunk fills its window: recover the window itself.
        have hwlen : ((text.drop start).take W).length ≤ W := by
          rw [List.length_take]; omega
        have hslen : (stripChars ((text.drop start).take W)).length ≤
            ((text.drop start).take W).length := stripChars_length_le _
        have hweq : ((text.drop start).take W).length = W := by omega
        have hfix : stripChars ((text.drop start).take W) = (text.drop start).take W :=
          stripChars_eq_self_of_length _ (by omega)
        have hstartW : start + W ≤ text.length := by
          rw [List.length_take, List.length_drop] at hweq
          omega
        have hWpos : 0 < W := by omega
        -- Its last character is non-whitespace.
        have hstartW' : start + W - 1 < text.length := by omega
        have hlast : wsb ((text.drop start).take W)[W - 1] = false := by
          have := stripChars_fix_last _ hfix (by omega)
          rw [getElem_idx_congr _ _ (W - 1) (by omega)] at this
          exact this
        have hchar : ((text.drop start).take W)[W - 1] = text[start + W - 1] := by
          simp only [List.getElem_take, List.getElem_drop]
          exact getElem_idx_congr text _ _ (by omega) (by omega)
        -- The next window is in range and contains that character.
        have hs' : start + (W - O) < text.length := by omega
        have hidx : O - 1 < ((text.drop (start + (W - O))).take W).length := by
          rw [List.length_take, List.length_drop]
          omega
        have heq : ((text.drop (start + (W - O))).take W)[O - 1] = text[start + W - 1] := by
          simp only [List.getElem_take, List.getElem_drop]
          exact getElem_idx_congr text _ _ (by omega) (by omega)
        have hmem : text[start + W - 1] ∈ (text.drop (start + (W - O))).take W := by
          rw [← heq]
          exact List.getElem_mem hidx
        have hnil' : stripChars ((text.drop (start + (W - O))).take W) ≠ [] := by
          apply stripChars_ne_nil_of_mem _ text[start + W - 1] hmem
          rw [← hchar]
          exact hlast
        -- Hence the next loop iteration emits exactly the strip of the next window.
        have hrest : chunkFrom W O text (start + (W - O)) =
            stripChars ((text.drop (start + (W - O))).take W) ::
              chunkFrom W O text (start + (W - O) + (W - O)) := by
          rw [chunkFrom_step W O text (start + (W - O)) ⟨hs', hOW⟩, if_neg hnil']
        rw [hrest] at hy
        simp only [List.head?_cons, Option.mem_def, Option.some.injEq] at hy
        subst hy
        -- The second chunk also fills its window.
        have hwlen' : ((text.drop (start + (W - O))).take W).length ≤ W := by
          rw [List.length_take]; omega
        have hfix' : stripChars ((text.drop (start + (W - O))).take W) =
            (text.drop (start + (W - O))).take W := by
          apply stripChars_eq_self_of_length
          have h1 := stripChars_length_le ((text.drop (start + (W - O))).take W)
          omega
        -- Compute the overlap on both sides.
        rw [hfix, hfix']
        rw [List.drop_take, List.take_take, List.drop_drop]
        have e1 : W - (W - O) = O := by omega
        have e2 : O ⊓ W = O := by omega
        rw [e1, e2]
    · rw [chunkFrom_stop W O text start hcond]
      exact List.chain'_nil

/-! ## Knowledge Store model (rag.py)

The Chroma collection and the sentence-transformers embedding model are
external dependencies, not repository code.  Modelled from the spec: the
Knowledge Store is a persistent vector index supporting "upsert-by-id and
nearest-neighbor query over embedded chunks, with source metadata"
(spec sections 2 and 4.5); the embedding model is an arbitrary function
from chunk text to a vector. -/

/-- One stored entry: chunk text, embedding vector, and source metadata. -/
structure KBEntry where
  doc : List Char
  emb : List Int
  source : String
deriving DecidableEq

/-- The store: entries keyed by string id, in insertion order. -/
abbrev KB := List (String × KBEntry)

/-- Overwrite the value of every entry keyed `id`; leave others alone. -/
def writeEntry (id : String) (e : KBEntry) (q : String × KBEntry) : String × KBEntry :=
  if q.1 = id then (id, e) else q

/-- Key membership in the store. -/
def hasKey (s : KB) (id : String) : Bool := s.any (fun q => q.1 == id)

/-- Modelled from the spec: the store's add operation upserts by id —
an existing id is overwritten in place, a new id is appended. -/
def kbUpsert (s : KB) (id : String) (e : KBEntry) : KB :=
  if hasKey s id then s.map (writeEntry id e)
  else s ++ [(id, e)]

/-- Upsert a batch of (id, entry) pairs, left to right. -/
def kbAddAll (s : KB) (entries : List (String × KBEntry)) : KB :=
  entries.foldl (fun acc pe => kbUpsert acc pe.1 pe.2) s

/-- Apply a batch of writes to a single entry, left to right. -/
def applyWrites (entries : List (String × KBEntry)) (q : String × KBEntry) :
    String × KBEntry :=
  entries.foldl (fun q pe => writeEntry pe.1 pe.2 q) q

/-- The last value a batch writes at a key, threaded through an accumulator. -/
def lastWriteFrom (entries : List (String × KBEntry)) (id : String)
    (acc : Option KBEntry) : Option KBEntry :=
  entries.foldl (fun acc pe => if pe.1 = id then some pe.2 else acc) acc

theorem any_map_comp {α β : Type} (f : α → β) (l : List α) (p : β → Bool) :
    (l.map f).any p = l.any (fun a => p (f a)) := by
  induction l with
  | nil => rfl
  | cons a t ih => simp [ih]

theorem writeEntry_fst (id : String) (e : KBEntry) (q : String × KBEntry) :
    (writeEntry id e q).1 = q.1 := by
  unfold writeEntry
  by_cases h : q.1 = id
  · rw [if_pos h, h]
  · rw [if_neg h]

theorem hasKey_map_writeEntry (s : KB) (a : String) (e : KBEntry) (x : String) :
    hasKey (s.map (writeEntry a e)) x = hasKey s x := by
  unfold hasKey
  rw [List.any_map]
  congr 1
  funext q
  simp [Function.comp, writeEntry_fst]

theorem hasKey_upsert (s : KB) (a : String) (e : KBEntry) (x : String) :
    hasKey (kbUpsert s a e) x = (hasKey s x || a == x) := by
  unfold kbUpsert
  by_cases h : hasKey s a
  · rw [if_pos h, hasKey_map_writeEntry]
    by_cases hax : a = x
    · subst hax
      rw [h]
      simp
    · have : (a == x) = false := by simp [hax]
      rw [this]
      simp
  · rw [if_neg h]
    unfold hasKey
    rw [List.any_append]
    simp [BEq.comm]

theorem hasKey_kbAddAll (s : KB) (L : List (String × KBEntry)) (x : String) :
    hasKey (kbAddAll s L) x = (hasKey s x || L.any (fun pe => pe.1 == x)) := by
  induction L generalizing s with
  | nil => simp [kbAddAll]
  | cons pe T ih =>
    show hasKey (kbAddAll (kbUpsert s pe.1 pe.2) T) x = _
    rw [ih, hasKey_upsert]
    simp [Bool.or_assoc]

theorem kbUpsert_eq_map (s : KB) (a : String) (e : KBEntry) (h : hasKey s a) :
    kbUpsert s a e = s.map (writeEntry a e) := by
  unfold kbUpsert
  rw [if_pos h]

theorem applyWrites_cons (pe : String × KBEntry) (T : List (String × KBEntry))
    (q : String × KBEntry) :
    applyWrites (pe :: T) q = applyWrites T (writeEntry pe.1 pe.2 q) := rfl

theorem kbAddAll_eq_map (L : List (String × KBEntry)) :
    ∀ s : KB, (∀ pe ∈ L, hasKey s pe.1) → kbAddAll s L = s.map (applyWrites L) := by
  induction L with
  | nil =>
    intro s _
    exact (List.map_id s).symm
  | cons pe T ih =>
    intro s hall
    show kbAddAll (kbUpsert s pe.1 pe.2) T = _
    rw [kbUpsert_eq_map s pe.1 pe.2 (hall pe (List.mem_cons_self pe T))]
    rw [ih (s.map (writeEntry pe.1 pe.2)) ?_]
    · rw [List.map_map]
      apply List.map_congr_left
      intro q _
      rw [Function.comp_apply, applyWrites_cons]
    · intro pf hpf
      rw [hasKey_map_writeEntry]
      exact hall pf (List.mem_cons_of_mem pe hpf)

theorem lastWriteFrom_acc (T : List (String × KBEntry)) (x : String) :
    ∀ acc, lastWriteFrom T x acc =
      match lastWriteFrom T x none with
      | some v => some v
      | none => acc := by
  induction T with
  | nil => intro acc; simp [lastWriteFrom]
  | cons pe T ih =>
    intro acc
    show lastWriteFrom T x (if pe.1 = x then some pe.2 else acc) = _
    by_cases h : pe.1 = x
    · rw [if_pos h]
      have hr : lastWriteFrom (pe :: T) x none = lastWriteFrom T x (some pe.2) := by
        show lastWriteFrom T x (if pe.1 = x then some pe.2 else none) = _
        rw [if_pos h]
      rw [hr, ih (some pe.2)]
      cases lastWriteFrom T x none with
      | none => rfl
      | some v => rfl
    · rw [if_neg h]
      have hr : lastWriteFrom (pe :: T) x none = lastWriteFrom T x none := by
        show lastWriteFrom T x (if pe.1 = x then some pe.2 else none) = _
        rw [if_neg h]
      rw [hr, ih acc]

theorem applyWrites_lastWrite (L : List (String × KBEntry)) :
    ∀ q, applyWrites L q =
      match lastWriteFrom L q.1 none with
      | some e => (q.1, e)
      | none => q := by
  induction L with
  | nil => intro q; simp [applyWrites, lastWriteFrom]
  | cons pe T ih =>
    intro q
    rw [applyWrites_cons]
    by_cases h : q.1 = pe.1
    · have hw : writeEntry pe.1 pe.2 q = (q.1, pe.2) := by
        unfold writeEntry
        rw [if_pos h, h]
      rw [hw, ih (q.1, pe.2)]
      have hscrut : lastWriteFrom (pe :: T) q.1 none = lastWriteFrom T q.1 (some pe.2) := by
        show lastWriteFrom T q.1 (if pe.1 = q.1 then some pe.2 else none) = _
        rw [if_pos h.symm]
      rw [hscrut, lastWriteFrom_acc T q.1 (some pe.2)]
      cases hh : lastWriteFrom T q.1 none with
      | none => rfl
      | some v => rfl
    · have hw : writeEntry pe.1 pe.2 q = q := by
        unfold writeEntry
        rw [if_neg (fun hc => h hc)]
      rw [hw, ih q]
      have hscrut : lastWriteFrom (pe :: T) q.1 none = lastWriteFrom T q.1 none := by
        show lastWriteFrom T q.1 (if pe.1 = q.1 then some pe.2 else none) = _
        rw [if_neg (fun hc => h hc.symm)]
      rw [hscrut]

theorem kbUpsert_entries_at_key (s : KB) (a : String) (e : KBEntry) :
    ∀ q ∈ kbUpsert s a e, q.1 = a → q = (a, e) := by
  intro q hq hkey
  unfold kbUpsert at hq
  by_cases h : hasKey s a
  · rw [if_pos h] at hq
    obtain ⟨q', _, rfl⟩ := List.mem_map.mp hq
    unfold writeEntry at hkey ⊢
    by_cases h' : q'.1 = a
    · rw [if_pos h']
    · rw [if_neg h'] at hkey
      exact absurd hkey h'
  · rw [if_neg h] at hq
    rcases List.mem_append.mp hq with hq' | hq'
    · exfalso
      apply h
      unfold hasKey
      rw [List.any_eq_true]
      exact ⟨q, hq', by simp [hkey]⟩
    · simpa using hq'

theorem kbAddAll_preserves_key_value (a : String) (e : KBEntry)
    (T : List (String × KBEntry)) :
    ∀ s : KB, (∀ q ∈ s, q.1 = a → q = (a, e)) → lastWriteFrom T a none = none →
      ∀ q ∈ kbAddAll s T, q.1 = a → q = (a, e) := by
  induction T with
  | nil => intro s hs _ q hq; exact hs q hq
  | cons pe T ih =>
    intro s hs hlw q hq hkey
    have hne : pe.1 ≠ a := by
      intro hc
      have : lastWriteFrom (pe :: T) a none = lastWriteFrom T a (some pe.2) := by
        show lastWriteFrom T a (if pe.1 = a then some pe.2 else none) = _
        rw [if_pos hc]
      rw [this, lastWriteFrom_acc T a (some pe.2)] at hlw
      cases hh : lastWriteFrom T a none with
      | none => rw [hh] at hlw; cases hlw
      | some v => rw [hh] at hlw; cases hlw
    have hlw' : lastWriteFrom T a none = none := by
      have : lastWriteFrom (pe :: T) a none = lastWriteFrom T a none := by
        show lastWriteFrom T a (if pe.1 = a then some pe.2 else none) = _
        rw [if_neg hne]
      rwa [this] at hlw
    have hs' : ∀ q ∈ kbUpsert s pe.1 pe.2, q.1 = a → q = (a, e) := by
      intro q' hq' hkey'
      unfold kbUpsert at hq'
      by_cases h : hasKey s pe.1
      · rw [if_pos h] at hq'
        obtain ⟨q'', hq'', rfl⟩ := List.mem_map.mp hq'
        unfold writeEntry at hkey' ⊢
        by_cases h'' : q''.1 = pe.1
        · rw [if_pos h''] at hkey' ⊢
          exact absurd hkey' hne
        · rw [if_neg h''] at hkey' ⊢
          exact hs q'' hq'' hkey'
      · rw [if_neg h] at hq'
        rcases List.mem_append.mp hq' with hm | hm
        · exact hs q' hm hkey'
        · simp only [List.mem_singleton] at hm
          subst hm
          exact absurd hkey' hne
    exact ih (kbUpsert s pe.1 pe.2) hs' hlw' q hq hkey

theorem kbAddAll_entry_last_write (L : List (String × KBEntry)) :
    ∀ s : KB, ∀ q ∈ kbAddAll s L, ∀ e, lastWriteFrom L q.1 none = some e → q = (q.1, e) := by
  induction L with
  | nil => intro s q _ e he; cases he
  | cons pe T ih =>
    intro s q hq e he
    by_cases h : pe.1 = q.1
    · have hscrut : lastWriteFrom (pe :: T) q.1 none = lastWriteFrom T q.1 (some pe.2) := by
        show lastWriteFrom T q.1 (if pe.1 = q.1 then some pe.2 else none) = _
        rw [if_pos h]
      rw [hscrut, lastWriteFrom_acc T q.1 (some pe.2)] at he
      cases hh : lastWriteFrom T q.1 none with
      | some v =>
        rw [hh] at he
        obtain rfl : v = e := by simpa using he
        exact ih (kbUpsert s pe.1 pe.2) q hq v hh
      | none =>
        rw [hh] at he
        obtain rfl : pe.2 = e := by simpa using he
        apply kbAddAll_preserves_key_value q.1 pe.2 T (kbUpsert s pe.1 pe.2) ?_ hh q hq rfl
        intro q' hq' hkey'
        have := kbUpsert_entries_at_key s pe.1 pe.2 q' hq' (by rw [hkey', ← h])
        rw [this, h]
    · have hscrut : lastWriteFrom (pe :: T) q.1 none = lastWriteFrom T q.1 none := by
        show lastWriteFrom T q.1 (if pe.1 = q.1 then some pe.2 else none) = _
        rw [if_neg h]
      rw [hscrut] at he
      exact ih (kbUpsert s pe.1 pe.2) q hq e he

/-- Re-upserting a batch over a store that already absorbed it is a no-op. -/
theorem kbAddAll_idem (s : KB) (L : List (String × KBEntry)) :
    kbAddAll (kbAddAll s L) L = kbAddAll s L := by
  rw [kbAddAll_eq_map L (kbAddAll s L) ?_]
  · have : ∀ q ∈ kbAddAll s L, applyWrites L q = q := by
      intro q hq
      rw [applyWrites_lastWrite L q]
      cases hh : lastWriteFrom L q.1 none with
      | none => rfl
      | some e =>
        have := kbAddAll_entry_last_write L s q hq e hh
        simpa using this.symm
    calc (kbAddAll s L).map (applyWrites L)
        = (kbAddAll s L).map id := List.map_congr_left (by simpa using this)
      _ = kbAddAll s L := List.map_id (kbAddAll s L)
  · intro pe hpe
    rw [hasKey_kbAddAll]
    have : L.any (fun pf => pf.1 == pe.1) = true := by
      rw [List.any_eq_true]
      exact ⟨pe, hpe, by simp⟩
    rw [this]
    simp

/-! ## Retrieval (rag.py `retrieve_from_knowledge_base`) -/

/-- Squared Euclidean distance between embedding vectors. -/
def dist (u v : List Int) : Int :=
  ((u.zip v).map (fun p => (p.1 - p.2) * (p.1 - p.2))).sum

/-- "Entry a is at least as relevant as entry b": not farther from the query. -/
abbrev distLE (qe : List Int) (a b : KBEntry) : Prop := dist qe a.emb ≤ dist qe b.emb

instance (qe : List Int) : IsTotal KBEntry (distLE qe) :=
  ⟨fun a b => le_total (dist qe a.emb) (dist qe b.emb)⟩

instance (qe : List Int) : IsTrans KBEntry (distLE qe) :=
  ⟨fun _ _ _ hab hbc => le_trans hab hbc⟩

/-- Modelled from the spec: the Chroma collection's nearest-neighbor query —
return the `k` stored entries nearest to the query embedding, nearest first. -/
def kbQuery (store : KB) (qe : List Int) (k : Nat) : List KBEntry :=
  (List.insertionSort (distLE qe) (store.map Prod.snd)).take k

def ragNotAvailableMsg : String :=
  "RAG is not available. Install with: pip install chromadb sentence-transformers"

def kbEmptyMsg : String :=
  "The knowledge base is empty. Index documents first with: python main.py index <path_or_dir>"

def noPassagesMsg : String := "No relevant passages found in the knowledge base."

/-- The numbered, source-annotated rendering of the retrieved passages. -/
def formatRetrieved (res : List KBEntry) : String :=
  String.intercalate "\n\n---\n\n"
    (((List.range res.length).zip res).map
      (fun ie => "[" ++ toString (ie.1 + 1) ++ "] (from " ++ ie.2.source ++ ")\n" ++
        String.mk ie.2.doc))

/-- The function `retrieve_from_knowledge_base`: dependency precondition, empty-store check,
then a top-`min k n` nearest-neighbor query and formatting. -/
def retrieve_from_knowledge_base (hasDeps : Bool) (embed : List Char → List Int)
    (store : KB) (query : String) (n_results : Nat) : String :=
  if !hasDeps then ragNotAvailableMsg
  else
    let n := store.length
    if n = 0 then kbEmptyMsg
    else
      let res := kbQuery store (embed query.data) (min n_results n)
      if res = [] then noPassagesMsg
      else formatRetrieved res

/-! ## Paths, the filesystem environment, and document indexing -/

/-- A filesystem path: directory components plus a final name split as
stem and extension (pathlib's `p.name` is `stem ++ ext`, `p.suffix` is `ext`). -/
structure MPath where
  dir : List String
  stem : String
  ext : String
deriving DecidableEq

def mpathName (p : MPath) : String := p.stem ++ p.ext

def mpathStr (p : MPath) : String := String.intercalate "/" (p.dir ++ [mpathName p])

deriving instance DecidableEq for Except

/-- What the filesystem and the extractors answer for one path: existence,
and the outcomes of `load_pdf_text`, `load_text` and the raw image read
(`Except.error` is a raised exception). -/
structure FileInfo where
  fexists : Bool
  pdfRead : Except String String
  textRead : Except String String
  imageRead : Except String String
deriving DecidableEq

def imageExtensions : List String := [".png", ".jpg", ".jpeg", ".gif", ".webp"]

def ragMissingMsg : String :=
  "Indexing error: RAG dependencies missing. Install with: pip install chromadb sentence-transformers"

/-- The chunk ids `index_document` submits: name and sequential index only. -/
def indexIds (p : MPath) (k : Nat) : List String :=
  (List.range k).map (fun i => mpathName p ++ "_" ++ toString i)

/-- The (id, entry) batch built from the chunks of one document. -/
def mkEntries (embed : List Char → List Int) (source : String) (name : String)
    (chunks : List (List Char)) : List (String × KBEntry) :=
  ((List.range chunks.length).zip chunks).map
    (fun ic => (name ++ "_" ++ toString ic.1,
      { doc := ic.2, emb := embed ic.2, source := source }))

/-- The tail of `index_document` after text extraction: blank-text check, then
the try-block (collection access fails when dependencies are missing and is
caught as "Indexing error: ..."), chunking, and the batched store add. -/
def indexText (hasDeps : Bool) (embed : List Char → List Int) (store : KB)
    (p : MPath) (text : String) : KB × String :=
  if stripChars text.data = [] then (store, "No text extracted from " ++ mpathStr p ++ ".")
  else if !hasDeps then (store, ragMissingMsg)
  else
    let chunks := chunk_text text.data
    if chunks = [] then (store, "No chunks from " ++ mpathStr p ++ ".")
    else
      (kbAddAll store (mkEntries embed (mpathStr p) (mpathName p) chunks),
        "Indexed " ++ toString chunks.length ++ " chunks from " ++ mpathStr p ++ ".")

/-- The function `index_document`: existence and image checks, extraction (a PDF
extraction failure propagates as an exception — `Except.error`; a text read
failure is caught), then `indexText`. -/
def index_document (hasDeps : Bool) (embed : List Char → List Int) (store : KB)
    (p : MPath) (info : FileInfo) : Except String (KB × String) :=
  if !info.fexists then .ok (store, "Error: File not found: " ++ mpathStr p)
  else if strLower p.ext ∈ imageExtensions then
    .ok (store, "Images cannot be indexed for text retrieval. Use PDF or .txt files.")
  else if strLower p.ext = ".pdf" then
    match info.pdfRead with
    | .error e => .error e
    | .ok text => .ok (indexText hasDeps embed store p text)
  else
    match info.textRead with
    | .error e => .ok (store, "Error reading file: " ++ e)
    | .ok text => .ok (indexText hasDeps embed store p text)

/-- The per-file body of `index_directory`'s loop: skip unrecognized
extensions, index the file, count successes, collect error lines. -/
def indexDirStep (hasDeps : Bool) (embed : List Char → List Int)
    (acc : KB × Nat × List String) (pf : MPath × FileInfo) :
    Except String (KB × Nat × List String) :=
  if strLower pf.1.ext = ".pdf" ∨ strLower pf.1.ext = ".txt" then do
    let rr ← index_document hasDeps embed acc.1 pf.1 pf.2
    if strStartsWith rr.2 "Indexed" then pure (rr.1, acc.2.1 + 1, acc.2.2)
    else pure (rr.1, acc.2.1, acc.2.2 ++ [mpathName pf.1 ++ ": " ++ rr.2])
  else pure acc

/-- The function `index_directory`: directory check, then fold `index_document` over the
sorted listing of entries with a recognized extension, counting successes and
collecting per-file errors (first five reported). -/
def index_directory (hasDeps : Bool) (embed : List Char → List Int) (store : KB)
    (isDir : Bool) (dirStr : String) (listing : List (MPath × FileInfo)) :
    Except String (KB × String) :=
  if !isDir then .ok (store, "Error: Not a directory: " ++ dirStr)
  else do
    let r ← listing.foldlM (indexDirStep hasDeps embed) (store, 0, ([] : List String))
    let msg := "Indexed " ++ toString r.2.1 ++ " file(s) from " ++ dirStr ++ "."
    pure (r.1, if r.2.2 = [] then msg else msg ++ " " ++ String.intercalate "; " (r.2.2.take 5))

/-! ## Multi-modal content builder (multimodal.py) -/

/-- One OpenAI-style content block: a text part or an inline image URL part. -/
inductive ContentBlock where
  | text (s : String)
  | imageUrl (url : String)
deriving DecidableEq

/-- The function `get_image_media_type`: extension to media type, defaulting to JPEG. -/
def get_image_media_type (ext : String) : String :=
  if ext = ".png" then "image/png"
  else if ext = ".jpg" then "image/jpeg"
  else if ext = ".jpeg" then "image/jpeg"
  else if ext = ".gif" then "image/gif"
  else if ext = ".webp" then "image/webp"
  else "image/jpeg"

/-- The single block appended for one file path.  The image read and the PDF
extraction are not guarded in the source, so their failures propagate as
exceptions (`Except.error`); only the generic text read is caught. -/
def fileBlock (env : MPath → FileInfo) (p : MPath) : Except String ContentBlock :=
  if !(env p).fexists then .ok (.text ("[File not found: " ++ mpathStr p ++ "]"))
  else if strLower p.ext ∈ imageExtensions then
    match (env p).imageRead with
    | .error e => .error e
    | .ok b64 =>
      .ok (.imageUrl ("data:" ++ get_image_media_type (strLower p.ext) ++ ";base64," ++ b64))
  else if strLower p.ext = ".pdf" then
    match (env p).pdfRead with
    | .error e => .error e
    | .ok t => .ok (.text ("[PDF: " ++ mpathName p ++ "]\n\n" ++ t))
  else
    match (env p).textRead with
    | .ok t => .ok (.text ("[File: " ++ mpathName p ++ "]\n\n" ++ t))
    | .error e => .ok (.text ("[Could not read " ++ mpathName p ++ ": " ++ e ++ "]"))

def noInputBlock : ContentBlock := .text "No input provided."

/-- The function `build_message_content`: optional leading text block, early return with a
placeholder when there are no files, otherwise one block per file in order
(the first uncaught extraction failure aborts with an exception). -/
def build_message_content (env : MPath → FileInfo) (user_text : String)
    (file_paths : List MPath) : Except String (List ContentBlock) :=
  let base := if pyStrip user_text ≠ "" then [ContentBlock.text user_text] else []
  if file_paths = [] then .ok (if base = [] then [noInputBlock] else base)
  else do
    let blocks ← file_paths.mapM (fileBlock env)
    return base ++ blocks

/-! ## Agent loop (agent.py) -/

/-- A tool-call request as emitted by the model: id, tool name, and the raw
argument string. -/
structure ToolCall where
  id : String
  name : String
  args : String
deriving DecidableEq

/-- The model's reply message: optional content and optional tool calls. -/
structure ModelMsg where
  content : Option String
  tool_calls : Option (List ToolCall)
deriving DecidableEq

inductive Role where
  | system
  | user
  | assistant
  | tool
deriving DecidableEq

/-- Message content: a plain string, or the user message's block list. -/
inductive MsgContent where
  | str (s : String)
  | blocks (bs : List ContentBlock)
deriving DecidableEq

/-- One conversation message. -/
structure ChatMsg where
  role : Role
  content : MsgContent
  tool_call_id : Option String
  tool_calls : Option (List ToolCall)
deriving DecidableEq

/-- Parsed tool arguments (a JSON object's key-value mapping). -/
abbrev Args := List (String × String)

/-- A tool implementation's outcome: `.error` is a raised exception,
`.ok none` is Python `None`, `.ok (some s)` is a string result. -/
abbrev ToolImpl := Args → Except String (Option String)

/-- The function `_run_tool`: unknown-name diagnostic, exception capture, None-to-empty. -/
def run_tool (impls : String → Option ToolImpl) (name : String) (args : Args) : String :=
  match impls name with
  | none => "Unknown tool: " ++ name
  | some f =>
    match f args with
    | .error e => "Tool error: " ++ e
    | .ok none => ""
    | .ok (some s) => s

/-- The tool-role message answering one tool-call request: arguments parsed
from the raw string (treated as empty on parse failure), result from
`run_tool`, linked by the request id. -/
def toolMsgFor (impls : String → Option ToolImpl) (parseArgs : String → Option Args)
    (tc : ToolCall) : ChatMsg :=
  { role := .tool,
    content := .str (run_tool impls tc.name ((parseArgs tc.args).getD [])),
    tool_call_id := some tc.id,
    tool_calls := none }

/-- The tool-role messages answering one assistant turn, in request order. -/
def toolMessages (impls : String → Option ToolImpl) (parseArgs : String → Option Args)
    (tcs : List ToolCall) : List ChatMsg :=
  tcs.map (toolMsgFor impls parseArgs)

/-- The assistant message appended for a model reply. -/
def assistantOf (m : ModelMsg) : ChatMsg :=
  { role := .assistant,
    content := .str (m.content.getD ""),
    tool_call_id := none,
    tool_calls := m.tool_calls }

/-- The step-limit fallback read of one message:
`(content or "Max steps reached.").strip()`.  On a block-list content
(the user message) Python raises AttributeError — modelled as `none`. -/
def readMsg (m : ChatMsg) : Option String :=
  match m.content with
  | .str s => some (pyStrip (if s = "" then "Max steps reached." else s))
  | .blocks _ => none

/-- The read `(messages[-1].get("content") or "Max steps reached.").strip()`. -/
def exhaustRead (msgs : List ChatMsg) : Option String :=
  match msgs.getLast? with
  | some m => readMsg m
  | none => none

/-- The `for _ in range(MAX_AGENT_STEPS)` loop of `run_research`, instrumented
with the final message list and the number of model calls made.  The result
string is `none` when the Python code would raise. -/
def agentRun (model : List ChatMsg → ModelMsg) (impls : String → Option ToolImpl)
    (parseArgs : String → Option Args) :
    List ChatMsg → Nat → List ChatMsg × Nat × Option String
  | msgs, 0 => (msgs, 0, exhaustRead msgs)
  | msgs, n + 1 =>
    let m := model msgs
    let msgs1 := msgs ++ [assistantOf m]
    match m.tool_calls with
    | none => (msgs1, 1, some (pyStrip (m.content.getD "")))
    | some [] => (msgs1, 1, some (pyStrip (m.content.getD "")))
    | some (tc :: rest) =>
      let r := agentRun model impls parseArgs
        (msgs1 ++ toolMessages impls parseArgs (tc :: rest)) n
      (r.1, r.2.1 + 1, r.2.2)

/-- The default system prompt of `run_research`. -/
def defaultSystemPrompt : String :=
  "You are a multi-modal research assistant. You can:\n- Answer questions using your knowledge.\n- Load and analyze documents (PDF, text, images) when the user provides file paths or asks about files.\n- Summarize long documents.\n- Search the web for current information when needed.\n- Search for academic papers (Semantic Scholar, arXiv) when the user wants literature or paper discovery.\n- Search the pre-indexed knowledge base (RAG) when the user has indexed documents.\n\nUse tools when they would improve your answer. Prefer search_academic_papers over web_search for finding papers. Cite sources when you use web_search or document content. If the user attaches images or PDFs, analyze them and respond accordingly. Be concise but thorough."

/-- The initial system message: `system_prompt or default_system`. -/
def sysMsgOf (system_prompt : Option String) : ChatMsg :=
  { role := .system,
    content := .str (match system_prompt with
      | some s => if s = "" then defaultSystemPrompt else s
      | none => defaultSystemPrompt),
    tool_call_id := none,
    tool_calls := none }

/-- The user message holding the built content blocks. -/
def userMsgOf (content : List ContentBlock) : ChatMsg :=
  { role := .user, content := .blocks content, tool_call_id := none, tool_calls := none }

/-- The function `run_research`: build the two initial messages and run the loop; `none`
models an uncaught exception (from content building or the fallback read). -/
def run_research (model : List ChatMsg → ModelMsg) (impls : String → Option ToolImpl)
    (parseArgs : String → Option Args) (maxSteps : Nat) (env : MPath → FileInfo)
    (user_text : String) (file_paths : List MPath) (system_prompt : Option String) :
    Option String :=
  match build_message_content env user_text file_paths with
  | .error _ => none
  | .ok content =>
    (agentRun model impls parseArgs [sysMsgOf system_prompt, userMsgOf content] maxSteps).2.2

/-! ## Claim theorems -/

theorem chunkTextP_eq_chunkFrom (W O : Nat) (text : List Char)
    (h : stripChars text ≠ []) : chunkTextP W O text = chunkFrom W O text 0 := by
  unfold chunkTextP
  rw [if_neg h]

theorem chunkTextP_nil (W O : Nat) : chunkTextP W O [] = [] := by
  unfold chunkTextP
  rw [if_pos (show stripChars ([] : List Char) = [] from rfl)]

/-- Claim C3: for every text and every window size W and overlap O with
0 < O < W, chunking produces the strips of the sliding windows
[i*(W-O), i*(W-O)+W): every chunk is a non-empty strip of such a window of
length at most W, consecutive chunks that both fill a whole window overlap
in exactly O characters, blank post-strip windows are dropped, and the
empty or whitespace-only text chunks to the empty sequence. -/
theorem chunking_sliding_window_spec (W O : Nat) (text : List Char)
    (hO : 0 < O) (hOW : O < W) :
    (∀ c ∈ chunkTextP W O text, c.length ≤ W) ∧
    (∀ c ∈ chunkTextP W O text,
      c ≠ [] ∧ ∃ i, c = stripChars ((text.drop (i * (W - O))).take W)) ∧
    List.Chain' (fun a b => a.length = W → b.length = W → a.drop (W - O) = b.take O)
      (chunkTextP W O text) ∧
    (stripChars text = [] → chunkTextP W O text = []) ∧
    chunkTextP W O [] = [] := by
  by_cases hblank : stripChars text = []
  · unfold chunkTextP
    rw [if_pos hblank]
    refine ⟨by simp, by simp, List.chain'_nil, fun _ => rfl, chunkTextP_nil W O⟩
  · rw [chunkTextP_eq_chunkFrom W O text hblank]
    have hwin := chunkFrom_mem_window W O text (text.length + 1) 0 (by omega)
    refine ⟨?_, ?_, ?_, ?_, chunkTextP_nil W O⟩
    · intro c hc
      obtain ⟨_, i, hi⟩ := hwin c hc
      have h1 := stripChars_length_le ((text.drop (0 + i * (W - O))).take W)
      have h2 : ((text.drop (0 + i * (W - O))).take W).length ≤ W := by
        rw [List.length_take]
        omega
      rw [hi]
      omega
    · intro c hc
      obtain ⟨hne, i, hi⟩ := hwin c hc
      rw [Nat.zero_add] at hi
      exact ⟨hne, i, hi⟩
    · exact chunkFrom_chain W O text hO hOW (text.length + 1) 0 (by omega)
    · intro hb
      exact absurd hb hblank

/-- Witness for C3 at W = 3, O = 1, text = "abcd". -/
theorem chunking_sliding_window_spec_witness :
    (0 < 1 ∧ 1 < 3) ∧
    ((∀ c ∈ chunkTextP 3 1 "abcd".data, c.length ≤ 3) ∧
     (∀ c ∈ chunkTextP 3 1 "abcd".data,
       c ≠ [] ∧ ∃ i, c = stripChars (("abcd".data.drop (i * (3 - 1))).take 3)) ∧
     List.Chain' (fun a b => a.length = 3 → b.length = 3 → a.drop (3 - 1) = b.take 1)
       (chunkTextP 3 1 "abcd".data) ∧
     (stripChars "abcd".data = [] → chunkTextP 3 1 "abcd".data = []) ∧
     chunkTextP 3 1 ([] : List Char) = []) :=
  ⟨⟨by decide, by decide⟩,
    chunking_sliding_window_spec 3 1 "abcd".data (by decide) (by decide)⟩

/-- Claim C9: because the overlap O is strictly smaller than the window size
W, each iteration advances the window start by the positive amount W - O and
the loop ends once the start reaches or exceeds the text length: the
fuel-indexed source loop completes without exhausting its fuel — terminating
— as soon as the fuel exceeds the remaining length, and computes the total
chunking function. -/
theorem chunking_terminates (W O : Nat) (text : List Char) (hOW : O < W) :
    ∀ start fuel, text.length - start < fuel →
      chunkLoopFuel W O text start fuel = some (chunkFrom W O text start) := by
  intro start fuel h
  exact chunkLoopFuel_eq W O text hOW fuel start h

/-- Witness for C9 at W = 800, O = 100 (the source constants) on a short text. -/
theorem chunking_terminates_witness :
    (100 < 800 ∧ "hello world".data.length - 0 < 12) ∧
    chunkLoopFuel 800 100 "hello world".data 0 12 =
      some (chunkFrom 800 100 "hello world".data 0) :=
  ⟨⟨by decide, by decide⟩,
    chunking_terminates 800 100 "hello world".data (by decide) 0 12 (by decide)⟩

theorem indexText_idem (hasDeps : Bool) (embed : List Char → List Int)
    (store s1 : KB) (m1 : String) (p : MPath) (text : String)
    (h1 : indexText hasDeps embed store p text = (s1, m1)) :
    indexText hasDeps embed s1 p text = (s1, m1) := by
  unfold indexText at h1 ⊢
  by_cases hb : stripChars text.data = []
  · rw [if_pos hb] at h1 ⊢
    obtain ⟨rfl, rfl⟩ := Prod.mk.injEq .. ▸ h1
    rfl
  · rw [if_neg hb] at h1 ⊢
    by_cases hd : (!hasDeps) = true
    · rw [if_pos hd] at h1 ⊢
      obtain ⟨rfl, rfl⟩ := Prod.mk.injEq .. ▸ h1
      rfl
    · rw [if_neg hd] at h1 ⊢
      by_cases hc : chunk_text text.data = []
      · rw [if_pos hc] at h1 ⊢
        obtain ⟨rfl, rfl⟩ := Prod.mk.injEq .. ▸ h1
        rfl
      · rw [if_neg hc] at h1 ⊢
        obtain ⟨rfl, rfl⟩ := Prod.mk.injEq .. ▸ h1
        rw [kbAddAll_idem]

/-- Claim C2: indexing the same unchanged document a second time is
idempotent.  The chunk ids are a deterministic function of filename and chunk
index, so the second indexing upserts the same entries at the same ids: it
succeeds with the same status message, the store is unchanged, and every
retrieval on the resulting store gives results identical to those after the
first indexing. -/
theorem index_document_idempotent (hasDeps : Bool) (embed : List Char → List Int)
    (store s1 : KB) (m1 : String) (p : MPath) (info : FileInfo)
    (h1 : index_document hasDeps embed store p info = .ok (s1, m1)) :
    ∃ s2, index_document hasDeps embed s1 p info = .ok (s2, m1) ∧ s2 = s1 ∧
      ∀ q k, retrieve_from_knowledge_base hasDeps embed s2 q k =
        retrieve_from_knowledge_base hasDeps embed s1 q k := by
  refine ⟨s1, ?_, rfl, fun q k => rfl⟩
  unfold index_document at h1 ⊢
  by_cases hf : (!info.fexists) = true
  · rw [if_pos hf] at h1 ⊢
    obtain ⟨rfl, rfl⟩ : store = s1 ∧ _ = m1 := by
      simpa using h1
    rfl
  · rw [if_neg hf] at h1 ⊢
    by_cases him : strLower p.ext ∈ imageExtensions
    · rw [if_pos him] at h1 ⊢
      obtain ⟨rfl, rfl⟩ : store = s1 ∧ _ = m1 := by
        simpa using h1
      rfl
    · rw [if_neg him] at h1 ⊢
      by_cases hp : strLower p.ext = ".pdf"
      · rw [if_pos hp] at h1 ⊢
        cases hr : info.pdfRead with
        | error e => rw [hr] at h1; simp at h1
        | ok text =>
          rw [hr] at h1
          have h2 : indexText hasDeps embed store p text = (s1, m1) := by
            simpa using h1
          show Except.ok (indexText hasDeps embed s1 p text) = Except.ok (s1, m1)
          rw [indexText_idem hasDeps embed store s1 m1 p text h2]
      · rw [if_neg hp] at h1 ⊢
        cases hr : info.textRead with
        | error e =>
          rw [hr] at h1
          obtain ⟨rfl, rfl⟩ : store = s1 ∧ "Error reading file: " ++ e = m1 := by
            simpa using h1
          rfl
        | ok text =>
          rw [hr] at h1
          have h2 : indexText hasDeps embed store p text = (s1, m1) := by
            simpa using h1
          show Except.ok (indexText hasDeps embed s1 p text) = Except.ok (s1, m1)
          rw [indexText_idem hasDeps embed store s1 m1 p text h2]

/-- Witness for C2: a text file whose indexing stops at the missing-dependency
check (store unchanged, informative message), indexed twice. -/
theorem index_document_idempotent_witness :
    index_document false (fun c => [(c.length : Int)]) []
      ⟨[], "a", ".txt"⟩ ⟨true, .ok "", .ok "hi", .ok ""⟩ = .ok ([], ragMissingMsg) ∧
    ∃ s2, index_document false (fun c => [(c.length : Int)]) []
        ⟨[], "a", ".txt"⟩ ⟨true, .ok "", .ok "hi", .ok ""⟩ = .ok (s2, ragMissingMsg) ∧
      s2 = ([] : KB) ∧
      ∀ q k, retrieve_from_knowledge_base false (fun c => [(c.length : Int)]) s2 q k =
        retrieve_from_knowledge_base false (fun c => [(c.length : Int)]) [] q k :=
  ⟨by decide,
    index_document_idempotent false (fun c => [(c.length : Int)]) [] [] ragMissingMsg
      ⟨[], "a", ".txt"⟩ ⟨true, .ok "", .ok "hi", .ok ""⟩ (by decide)⟩

theorem mkEntries_fst (embed : List Char → List Int) (source name : String)
    (chunks : List (List Char)) :
    (mkEntries embed source name chunks).map Prod.fst =
      (List.range chunks.length).map (fun i => name ++ "_" ++ toString i) := by
  unfold mkEntries
  rw [List.map_map]
  have : (Prod.fst ∘ fun ic : Nat × List Char =>
      (name ++ "_" ++ toString ic.1,
        ({ doc := ic.2, emb := embed ic.2, source := source } : KBEntry))) =
      (fun i => name ++ "_" ++ toString i) ∘ Prod.fst := by
    funext ic
    rfl
  rw [this, ← List.map_map]
  rw [List.map_fst_zip]
  simp

/-- Claim C10: the chunk ids submitted to the store by document indexing are
a function of the file's basename and the chunk's sequential index only, not
of the directory part of the path: the entry batch is keyed by `indexIds`,
two paths with equal basenames whose texts chunk to the same count generate
identical id sequences, and indexing the second document over the first adds
no new ids to the store — the ids collide. -/
theorem index_ids_basename_only (p1 p2 : MPath) (t1 t2 : List Char)
    (hstem : p1.stem = p2.stem) (hext : p1.ext = p2.ext)
    (hk : (chunk_text t1).length = (chunk_text t2).length) :
    (∀ embed source, (mkEntries embed source (mpathName p1) (chunk_text t1)).map Prod.fst =
      indexIds p1 (chunk_text t1).length) ∧
    indexIds p1 (chunk_text t1).length = indexIds p2 (chunk_text t2).length ∧
    (∀ embed1 embed2 src1 src2 (s : KB) x,
      hasKey (kbAddAll (kbAddAll s (mkEntries embed1 src1 (mpathName p1) (chunk_text t1)))
          (mkEntries embed2 src2 (mpathName p2) (chunk_text t2))) x =
        hasKey (kbAddAll s (mkEntries embed1 src1 (mpathName p1) (chunk_text t1))) x) := by
  have hname : mpathName p1 = mpathName p2 := by
    unfold mpathName
    rw [hstem, hext]
  have hids : indexIds p1 (chunk_text t1).length = indexIds p2 (chunk_text t2).length := by
    unfold indexIds
    rw [hname, hk]
  refine ⟨fun embed source => by rw [mkEntries_fst]; rfl, hids, ?_⟩
  intro embed1 embed2 src1 src2 s x
  rw [hasKey_kbAddAll]
  have hany : ∀ (E : List (String × KBEntry)),
      E.any (fun pe => pe.1 == x) = (E.map Prod.fst).any (fun a => a == x) := by
    intro E
    rw [any_map_comp]
  rw [hany, mkEntries_fst]
  have h2 : ((List.range (chunk_text t2).length).map
      (fun i => mpathName p2 ++ "_" ++ toString i)).any (fun a => a == x) =
      (mkEntries embed1 src1 (mpathName p1) (chunk_text t1)).any (fun pe => pe.1 == x) := by
    have : (List.range (chunk_text t2).length).map
        (fun i => mpathName p2 ++ "_" ++ toString i) = indexIds p2 (chunk_text t2).length := rfl
    rw [this, ← hids]
    rw [hany (mkEntries embed1 src1 (mpathName p1) (chunk_text t1)), mkEntries_fst]
    rfl
  rw [h2]
  rw [hasKey_kbAddAll]
  cases hasKey s x <;>
    cases (mkEntries embed1 src1 (mpathName p1) (chunk_text t1)).any (fun pe => pe.1 == x) <;>
    rfl

/-- Witness for C10: same basename `a.txt` in different directories, same
text, hence identical id sequences. -/
theorem index_ids_basename_only_witness :
    indexIds ⟨["d1"], "a", ".txt"⟩ (chunk_text "hi".data).length =
      indexIds ⟨["d2", "x"], "a", ".txt"⟩ (chunk_text "hi".data).length :=
  (index_ids_basename_only ⟨["d1"], "a", ".txt"⟩ ⟨["d2", "x"], "a", ".txt"⟩
    "hi".data "hi".data rfl rfl rfl).2.1

theorem indexText_noDeps (embed : List Char → List Int) (store : KB) (p : MPath)
    (text : String) :
    indexText false embed store p text =
      (store, if stripChars text.data = []
        then "No text extracted from " ++ mpathStr p ++ "." else ragMissingMsg) := by
  unfold indexText
  by_cases hb : stripChars text.data = []
  · rw [if_pos hb, if_pos hb]
  · rw [if_neg hb, if_neg hb]
    rfl

theorem index_document_noDeps (embed : List Char → List Int) (store : KB)
    (p : MPath) (info : FileInfo)
    (hpdf : strLower p.ext = ".pdf" → ∃ t, info.pdfRead = .ok t) :
    ∃ m, index_document false embed store p info = .ok (store, m) ∧
      (m = "Error: File not found: " ++ mpathStr p ∨
       m = "Images cannot be indexed for text retrieval. Use PDF or .txt files." ∨
       (∃ e, m = "Error reading file: " ++ e) ∨
       m = "No text extracted from " ++ mpathStr p ++ "." ∨
       m = ragMissingMsg) := by
  unfold index_document
  by_cases hf : (!info.fexists) = true
  · rw [if_pos hf]
    exact ⟨_, rfl, Or.inl rfl⟩
  · rw [if_neg hf]
    by_cases him : strLower p.ext ∈ imageExtensions
    · rw [if_pos him]
      exact ⟨_, rfl, Or.inr (Or.inl rfl)⟩
    · rw [if_neg him]
      by_cases hp : strLower p.ext = ".pdf"
      · rw [if_pos hp]
        obtain ⟨t, ht⟩ := hpdf hp
        rw [ht]
        have hx := indexText_noDeps embed store p t
        by_cases hb : stripChars t.data = []
        · rw [if_pos hb] at hx
          refine ⟨"No text extracted from " ++ mpathStr p ++ ".", ?_,
            Or.inr (Or.inr (Or.inr (Or.inl rfl)))⟩
          show Except.ok (indexText false embed store p t) = _
          rw [hx]
        · rw [if_neg hb] at hx
          refine ⟨ragMissingMsg, ?_, Or.inr (Or.inr (Or.inr (Or.inr rfl)))⟩
          show Except.ok (indexText false embed store p t) = _
          rw [hx]
      · rw [if_neg hp]
        cases hr : info.textRead with
        | error e =>
          exact ⟨_, rfl, Or.inr (Or.inr (Or.inl ⟨e, rfl⟩))⟩
        | ok t =>
          have hx := indexText_noDeps embed store p t
          by_cases hb : stripChars t.data = []
          · rw [if_pos hb] at hx
            refine ⟨"No text extracted from " ++ mpathStr p ++ ".", ?_,
              Or.inr (Or.inr (Or.inr (Or.inl rfl)))⟩
            show Except.ok (indexText false embed store p t) = _
            rw [hx]
          · rw [if_neg hb] at hx
            refine ⟨ragMissingMsg, ?_, Or.inr (Or.inr (Or.inr (Or.inr rfl)))⟩
            show Except.ok (indexText false embed store p t) = _
            rw [hx]

theorem except_bind_ok {ε α β : Type} (a : α) (f : α → Except ε β) :
    ((Except.ok a : Except ε α) >>= f) = f a := rfl

theorem except_pure_bind {ε α β : Type} (a : α) (f : α → Except ε β) :
    ((pure a : Except ε α) >>= f) = f a := rfl

theorem indexDir_fold_noDeps (embed : List Char → List Int)
    (listing : List (MPath × FileInfo)) :
    ∀ (store : KB) (cnt : Nat) (errs : List String),
      (∀ pf ∈ listing, strLower pf.1.ext = ".pdf" → ∃ t, pf.2.pdfRead = .ok t) →
      ∃ cnt' errs', listing.foldlM (indexDirStep false embed) (store, cnt, errs) =
        .ok (store, cnt', errs') := by
  induction listing with
  | nil => intro store cnt errs _; exact ⟨cnt, errs, rfl⟩
  | cons pf T ih =>
    intro store cnt errs hall
    rw [List.foldlM_cons]
    unfold indexDirStep
    by_cases hrec : strLower pf.1.ext = ".pdf" ∨ strLower pf.1.ext = ".txt"
    · rw [if_pos hrec]
      obtain ⟨m, hm, _⟩ := index_document_noDeps embed store pf.1 pf.2
        (fun hp => hall pf (List.mem_cons_self pf T) hp)
      simp only [hm, except_bind_ok]
      by_cases hs : strStartsWith m "Indexed" = true
      · rw [if_pos hs]
        simp only [except_pure_bind]
        exact ih store (cnt + 1) errs
          (fun pg hg hp => hall pg (List.mem_cons_of_mem pf hg) hp)
      · rw [if_neg hs]
        simp only [except_pure_bind]
        exact ih store cnt (errs ++ [mpathName pf.1 ++ ": " ++ m])
          (fun pg hg hp => hall pg (List.mem_cons_of_mem pf hg) hp)
    · rw [if_neg hrec]
      exact ih store cnt errs (fun pg hg hp => hall pg (List.mem_cons_of_mem pf hg) hp)

/-- Claim C6 (amended): with the vector-store/embedding dependencies missing,
`retrieve_from_knowledge_base` checks availability as a precondition and
returns the static not-available string; `index_document` and
`index_directory` do not raise and leave the store unchanged — provided PDF
extraction itself does not raise — but the dependency failure is not a
precondition check: file-level checks take precedence, and on the main path
the failure surfaces as the caught-exception message "Indexing error: RAG
dependencies missing...". -/
theorem knowledge_store_unavailable (embed : List Char → List Int) :
    (∀ (store : KB) (q : String) (k : Nat),
      retrieve_from_knowledge_base false embed store q k = ragNotAvailableMsg) ∧
    (∀ (store : KB) (p : MPath) (info : FileInfo),
      (strLower p.ext = ".pdf" → ∃ t, info.pdfRead = .ok t) →
      ∃ m, index_document false embed store p info = .ok (store, m) ∧
        (m = "Error: File not found: " ++ mpathStr p ∨
         m = "Images cannot be indexed for text retrieval. Use PDF or .txt files." ∨
         (∃ e, m = "Error reading file: " ++ e) ∨
         m = "No text extracted from " ++ mpathStr p ++ "." ∨
         m = ragMissingMsg)) ∧
    (∀ (store : KB) (p : MPath) (info : FileInfo) (t : String),
      info.fexists = true → strLower p.ext ∉ imageExtensions →
      strLower p.ext ≠ ".pdf" → info.textRead = .ok t → stripChars t.data ≠ [] →
      index_document false embed store p info = .ok (store, ragMissingMsg)) ∧
    (∀ (store : KB) (dirStr : String) (listing : List (MPath × FileInfo)),
      (∀ pf ∈ listing, strLower pf.1.ext = ".pdf" → ∃ t, pf.2.pdfRead = .ok t) →
      ∃ m, index_directory false embed store true dirStr listing = .ok (store, m)) := by
  refine ⟨fun store q k => rfl, index_document_noDeps embed, ?_, ?_⟩
  · intro store p info t hf him hp hr hb
    unfold index_document
    have hf' : ¬((!info.fexists) = true) := by
      rw [hf]
      decide
    rw [if_neg hf', if_neg him, if_neg hp, hr]
    show Except.ok (indexText false embed store p t) = _
    rw [indexText_noDeps, if_neg hb]
  · intro store dirStr listing hall
    obtain ⟨cnt', errs', hfold⟩ := indexDir_fold_noDeps embed listing store 0 [] hall
    unfold index_directory
    rw [if_neg (by simp)]
    rw [hfold]
    exact ⟨_, rfl⟩

/-- Counterexample for C6 as stated: with dependencies missing and a
nonexistent path, `index_document` returns the file-not-found string — the
availability check is not a precondition and the result is not a
"not available" message. -/
theorem knowledge_store_unavailable_counterexample :
    index_document false (fun c => [(c.length : Int)]) [] ⟨[], "a", ".txt"⟩
      ⟨false, .ok "", .ok "", .ok ""⟩ = .ok ([], "Error: File not found: a.txt") ∧
    "Error: File not found: a.txt" ≠ ragNotAvailableMsg ∧
    "Error: File not found: a.txt" ≠ ragMissingMsg := by
  refine ⟨by decide, by decide, by decide⟩

/-- Witness for C6 (amended): the precondition-checked retrieval message and
the caught-exception indexing message on a concrete readable text file. -/
theorem knowledge_store_unavailable_witness :
    retrieve_from_knowledge_base false (fun c => [(c.length : Int)]) [] "q" 5 =
      ragNotAvailableMsg ∧
    index_document false (fun c => [(c.length : Int)]) [] ⟨[], "b", ".txt"⟩
      ⟨true, .ok "", .ok "hi", .ok ""⟩ = .ok ([], ragMissingMsg) :=
  ⟨(knowledge_store_unavailable (fun c => [(c.length : Int)])).1 [] "q" 5,
   (knowledge_store_unavailable (fun c => [(c.length : Int)])).2.2.1 []
     ⟨[], "b", ".txt"⟩ ⟨true, .ok "", .ok "hi", .ok ""⟩ "hi" rfl (by decide)
     (by decide) rfl (by decide)⟩

/-- Claim C8: with the store provisioned, retrieval returns the static
"no data" message for an empty store without querying; for a store of
N > 0 entries the query yields exactly min(k, N) entries, all drawn from the
store, ordered by nondecreasing distance to the query embedding (decreasing
relevance, nearest first), and the result string is their numbered,
source-annotated rendering. -/
theorem retrieve_top_k (embed : List Char → List Int) (store : KB) (q : String) (k : Nat) :
    (store.length = 0 → retrieve_from_knowledge_base true embed store q k = kbEmptyMsg) ∧
    (store.length ≠ 0 →
      (kbQuery store (embed q.data) (min k store.length)).length = min k store.length ∧
      (kbQuery store (embed q.data) (min k store.length)).Pairwise (distLE (embed q.data)) ∧
      (∀ e ∈ kbQuery store (embed q.data) (min k store.length), e ∈ store.map Prod.snd) ∧
      retrieve_from_knowledge_base true embed store q k =
        (if kbQuery store (embed q.data) (min k store.length) = [] then noPassagesMsg
         else formatRetrieved (kbQuery store (embed q.data) (min k store.length)))) := by
  have hne : ¬((!true) = true) := by decide
  constructor
  · intro h0
    unfold retrieve_from_knowledge_base
    rw [if_neg hne, if_pos h0]
  · intro hn
    have hsorted : (List.insertionSort (distLE (embed q.data)) (store.map Prod.snd)).Pairwise
        (distLE (embed q.data)) :=
      List.sorted_insertionSort (distLE (embed q.data)) (store.map Prod.snd)
    have hsub : (kbQuery store (embed q.data) (min k store.length)).Sublist
        (List.insertionSort (distLE (embed q.data)) (store.map Prod.snd)) :=
      List.take_sublist _ _
    refine ⟨?_, List.Pairwise.sublist hsub hsorted, ?_, ?_⟩
    · unfold kbQuery
      rw [List.length_take, List.length_insertionSort, List.length_map]
      omega
    · intro e he
      have h1 : e ∈ List.insertionSort (distLE (embed q.data)) (store.map Prod.snd) :=
        hsub.mem he
      exact (List.perm_insertionSort (distLE (embed q.data)) (store.map Prod.snd)).mem_iff.mp h1
    · unfold retrieve_from_knowledge_base
      rw [if_neg hne, if_neg hn]

/-- Witness for C8 on an empty store and on a one-entry store with k = 5. -/
theorem retrieve_top_k_witness :
    retrieve_from_knowledge_base true (fun c => [(c.length : Int)]) [] "q" 5 = kbEmptyMsg ∧
    (kbQuery [("a_0", ⟨['h'], [1], "a.txt"⟩)] ((fun c => [(c.length : Int)]) "q".data)
      (min 5 [("a_0", (⟨['h'], [1], "a.txt"⟩ : KBEntry))].length)).length =
      min 5 [("a_0", (⟨['h'], [1], "a.txt"⟩ : KBEntry))].length :=
  ⟨(retrieve_top_k (fun c => [(c.length : Int)]) [] "q" 5).1 rfl,
   ((retrieve_top_k (fun c => [(c.length : Int)]) [("a_0", ⟨['h'], [1], "a.txt"⟩)] "q" 5).2
     (by decide)).1⟩

theorem except_bind_error {ε α β : Type} (e : ε) (f : α → Except ε β) :
    ((Except.error e : Except ε α) >>= f) = Except.error e := rfl

theorem except_pure_eq_ok {ε α : Type} (a : α) : (pure a : Except ε α) = .ok a := rfl

theorem mapM_ok_length {α β : Type} (f : α → Except String β) (l : List α) :
    ∀ bs, l.mapM f = .ok bs → bs.length = l.length := by
  induction l with
  | nil =>
    intro bs h
    rw [List.mapM_nil, except_pure_eq_ok] at h
    obtain rfl : ([] : List β) = bs := by simpa using h
    rfl
  | cons a t ih =>
    intro bs h
    rw [List.mapM_cons] at h
    cases ha : f a with
    | error e => rw [ha, except_bind_error] at h; cases h
    | ok b =>
      rw [ha, except_bind_ok] at h
      cases hm : t.mapM f with
      | error e => rw [hm, except_bind_error] at h; cases h
      | ok bt =>
        rw [hm, except_bind_ok, except_pure_eq_ok] at h
        obtain rfl : b :: bt = bs := by simpa using h
        simp [ih bt hm]

theorem mapM_ok_of_all {α β : Type} (f : α → Except String β) (l : List α)
    (h : ∀ a ∈ l, ∃ b, f a = .ok b) : ∃ bs, l.mapM f = .ok bs := by
  induction l with
  | nil => exact ⟨[], rfl⟩
  | cons a t ih =>
    obtain ⟨b, hb⟩ := h a (List.mem_cons_self a t)
    obtain ⟨bt, hbt⟩ := ih (fun x hx => h x (List.mem_cons_of_mem a hx))
    refine ⟨b :: bt, ?_⟩
    rw [List.mapM_cons, hb, except_bind_ok, hbt, except_bind_ok]
    rfl

/-- Claim C4 (amended): the content builder never returns an empty sequence
and returns exactly one placeholder block when both the trimmed text and the
file list are empty; a nonexistent path and an unreadable generic file each
yield a diagnostic Text block; and the builder never raises provided each
per-file block succeeds — but an image read or PDF extraction failure is not
caught and propagates as an exception. -/
theorem build_message_content_spec (env : MPath → FileInfo) (user_text : String)
    (file_paths : List MPath) :
    (pyStrip user_text = "" → file_paths = [] →
      build_message_content env user_text file_paths = .ok [noInputBlock]) ∧
    (∀ bs, build_message_content env user_text file_paths = .ok bs → bs ≠ []) ∧
    (∀ p : MPath, (env p).fexists = false →
      fileBlock env p = .ok (.text ("[File not found: " ++ mpathStr p ++ "]"))) ∧
    (∀ (p : MPath) (e : String), (env p).fexists = true →
      strLower p.ext ∉ imageExtensions → strLower p.ext ≠ ".pdf" →
      (env p).textRead = .error e →
      fileBlock env p = .ok (.text ("[Could not read " ++ mpathName p ++ ": " ++ e ++ "]"))) ∧
    ((∀ p ∈ file_paths, ∃ b, fileBlock env p = .ok b) →
      ∃ bs, build_message_content env user_text file_paths = .ok bs ∧ bs ≠ []) := by
  refine ⟨?_, ?_, ?_, ?_, ?_⟩
  · intro ht hp
    subst hp
    simp [build_message_content, ht]
  · intro bs hbs
    unfold build_message_content at hbs
    by_cases hp : file_paths = []
    · rw [if_pos hp] at hbs
      by_cases hb : (if pyStrip user_text ≠ "" then [ContentBlock.text user_text] else []) = []
      · rw [if_pos hb] at hbs
        obtain rfl : [noInputBlock] = bs := by simpa using hbs
        simp
      · rw [if_neg hb] at hbs
        have : (if pyStrip user_text ≠ "" then [ContentBlock.text user_text] else []) = bs := by
          simpa using hbs
        rw [← this]
        exact hb
    · rw [if_neg hp] at hbs
      cases hm : file_paths.mapM (fileBlock env) with
      | error e =>
        rw [hm, except_bind_error] at hbs
        cases hbs
      | ok blocks =>
        rw [hm, except_bind_ok] at hbs
        have hlen : blocks.length = file_paths.length := mapM_ok_length (fileBlock env)
          file_paths blocks hm
        rw [except_pure_eq_ok] at hbs
        have hbs' : (if pyStrip user_text ≠ "" then [ContentBlock.text user_text] else []) ++
            blocks = bs := by
          simpa using hbs
        intro hcon
        rw [hcon] at hbs'
        have h0 := congrArg List.length hbs'
        rw [List.length_append] at h0
        have h1 : 0 < file_paths.length := List.length_pos.mpr hp
        simp only [List.length_nil] at h0
        omega
  · intro p hne
    unfold fileBlock
    rw [hne]
    rfl
  · intro p e hex him hpdf hr
    unfold fileBlock
    rw [hex, if_neg him, if_neg hpdf, hr]
    rfl
  · intro hall
    by_cases hp : file_paths = []
    · subst hp
      unfold build_message_content
      by_cases hb : (if pyStrip user_text ≠ "" then [ContentBlock.text user_text] else []) = []
      · rw [if_pos rfl, if_pos hb]
        exact ⟨[noInputBlock], rfl, by simp⟩
      · rw [if_pos rfl, if_neg hb]
        exact ⟨_, rfl, hb⟩
    · obtain ⟨blocks, hm⟩ := mapM_ok_of_all (fileBlock env) file_paths hall
      unfold build_message_content
      rw [if_neg hp, hm, except_bind_ok]
      refine ⟨_, rfl, ?_⟩
      have hlen : blocks.length = file_paths.length := mapM_ok_length (fileBlock env)
        file_paths blocks hm
      have h1 : 0 < file_paths.length := List.length_pos.mpr hp
      intro hcon
      have h0 := congrArg List.length hcon
      rw [List.length_append] at h0
      simp only [List.length_nil] at h0
      omega

/-- Counterexample for C4 as stated: a failing PDF extraction on an existing
`.pdf` path propagates out of the builder as an exception. -/
theorem build_message_content_counterexample :
    build_message_content (fun _ => ⟨true, .error "EOF marker not found", .ok "", .ok ""⟩)
      "hi" [⟨[], "doc", ".pdf"⟩] = .error "EOF marker not found" := by
  decide

/-- Witness for C4 (amended): the empty-input placeholder and a successful
run over one missing file and one readable text file. -/
theorem build_message_content_spec_witness :
    build_message_content (fun _ => ⟨false, .ok "", .ok "", .ok ""⟩) "   " [] =
      .ok [noInputBlock] ∧
    ∃ bs, build_message_content (fun _ => ⟨false, .ok "", .ok "", .ok ""⟩) "hi"
      [⟨[], "a", ".txt"⟩] = .ok bs ∧ bs ≠ [] :=
  ⟨(build_message_content_spec (fun _ => ⟨false, .ok "", .ok "", .ok ""⟩) "   " []).1
     (by decide) rfl,
   (build_message_content_spec (fun _ => ⟨false, .ok "", .ok "", .ok ""⟩) "hi"
     [⟨[], "a", ".txt"⟩]).2.2.2.2
     (by intro p hp; exact ⟨_, by cases hp with
       | head => rfl
       | tail _ h => cases h⟩)⟩

/-- Claim C5: within one assistant turn, every tool-call request emitted by
the model is answered by exactly one tool-role message with the matching
tool_call_id, in request order; the loop continues with exactly those
messages appended after the assistant message; a raising tool yields an
error-string result and an unparseable argument string is treated as an
empty mapping — the turn is not aborted. -/
theorem tool_call_result_pairing (impls : String → Option ToolImpl)
    (parseArgs : String → Option Args) (tcs : List ToolCall) :
    (toolMessages impls parseArgs tcs).length = tcs.length ∧
    (toolMessages impls parseArgs tcs).map (fun m => m.tool_call_id) =
      tcs.map (fun tc => some tc.id) ∧
    (∀ m ∈ toolMessages impls parseArgs tcs, m.role = .tool) ∧
    (∀ (model : List ChatMsg → ModelMsg) (msgs : List ChatMsg) (n : Nat) (tc : ToolCall)
      (rest : List ToolCall), (model msgs).tool_calls = some (tc :: rest) →
      agentRun model impls parseArgs msgs (n + 1) =
        ((agentRun model impls parseArgs
            ((msgs ++ [assistantOf (model msgs)]) ++ toolMessages impls parseArgs (tc :: rest))
            n).1,
         (agentRun model impls parseArgs
            ((msgs ++ [assistantOf (model msgs)]) ++ toolMessages impls parseArgs (tc :: rest))
            n).2.1 + 1,
         (agentRun model impls parseArgs
            ((msgs ++ [assistantOf (model msgs)]) ++ toolMessages impls parseArgs (tc :: rest))
            n).2.2)) ∧
    (∀ tc : ToolCall, parseArgs tc.args = none →
      toolMsgFor impls parseArgs tc =
        { role := .tool, content := .str (run_tool impls tc.name []),
          tool_call_id := some tc.id, tool_calls := none }) ∧
    (∀ (nm : String) (f : ToolImpl) (args : Args) (e : String),
      impls nm = some f → f args = .error e →
      run_tool impls nm args = "Tool error: " ++ e) := by
  refine ⟨?_, ?_, ?_, ?_, ?_, ?_⟩
  · unfold toolMessages
    rw [List.length_map]
  · unfold toolMessages
    rw [List.map_map]
    rfl
  · intro m hm
    obtain ⟨tc, _, rfl⟩ := List.mem_map.mp hm
    rfl
  · intro model msgs n tc rest h
    simp only [agentRun]
    rw [h]
  · intro tc h
    unfold toolMsgFor
    rw [h]
    rfl
  · intro nm f args e h1 h2
    unfold run_tool
    rw [h1]
    show (match f args with
      | .error e => "Tool error: " ++ e
      | .ok none => ""
      | .ok (some s) => s) = _
    rw [h2]

/-- Witness for C5: two tool calls, the first to a raising tool, with an
unparseable argument string. -/
theorem tool_call_result_pairing_witness :
    (toolMessages (fun nm => if nm = "w" then some (fun _ => .error "boom") else none)
        (fun _ => none) ([⟨"1", "w", "x"⟩, ⟨"2", "u", "y"⟩] : List ToolCall)).map
        (fun m => m.tool_call_id) =
      ([⟨"1", "w", "x"⟩, ⟨"2", "u", "y"⟩] : List ToolCall).map (fun tc => some tc.id) ∧
    run_tool (fun nm => if nm = "w" then some (fun _ => .error "boom") else none) "w" [] =
      "Tool error: " ++ "boom" :=
  ⟨(tool_call_result_pairing (fun nm => if nm = "w" then some (fun _ => .error "boom") else none)
      (fun _ => none) ([⟨"1", "w", "x"⟩, ⟨"2", "u", "y"⟩] : List ToolCall)).2.1,
   (tool_call_result_pairing (fun nm => if nm = "w" then some (fun _ => .error "boom") else none)
      (fun _ => none) []).2.2.2.2.2 "w" (fun _ => .error "boom") [] "boom" rfl rfl⟩

/-- Claim C7: a model reply with no tool-call requests is the only
success-terminal transition: the loop makes at most n model calls; any run
that stopped before exhausting its budget ended on an assistant message
whose reply had no tool calls, returning its trimmed text; such a reply
terminates the loop immediately; and in the direct-answer scenario the
conversation at termination is exactly system, user, assistant. -/
theorem no_toolcalls_terminal (model : List ChatMsg → ModelMsg)
    (impls : String → Option ToolImpl) (parseArgs : String → Option Args) :
    (∀ msgs n, (agentRun model impls parseArgs msgs n).2.1 ≤ n) ∧
    (∀ msgs n, (agentRun model impls parseArgs msgs n).2.1 < n →
      ∃ m : ModelMsg, (m.tool_calls = none ∨ m.tool_calls = some []) ∧
        (agentRun model impls parseArgs msgs n).2.2 = some (pyStrip (m.content.getD "")) ∧
        (agentRun model impls parseArgs msgs n).1.getLast? = some (assistantOf m)) ∧
    (∀ msgs n, (model msgs).tool_calls = none →
      agentRun model impls parseArgs msgs (n + 1) =
        (msgs ++ [assistantOf (model msgs)], 1,
          some (pyStrip ((model msgs).content.getD "")))) ∧
    (∀ sysM userM n, (model [sysM, userM]).tool_calls = none →
      agentRun model impls parseArgs [sysM, userM] (n + 1) =
        ([sysM, userM, assistantOf (model [sysM, userM])], 1,
          some (pyStrip ((model [sysM, userM]).content.getD "")))) ∧
    (∀ env user_text file_paths system_prompt maxSteps content,
      build_message_content env user_text file_paths = .ok content →
      (model [sysMsgOf system_prompt, userMsgOf content]).tool_calls = none →
      run_research model impls parseArgs (maxSteps + 1) env user_text file_paths
          system_prompt =
        some (pyStrip ((model [sysMsgOf system_prompt, userMsgOf content]).content.getD ""))) := by
  have himm : ∀ msgs n, (model msgs).tool_calls = none →
      agentRun model impls parseArgs msgs (n + 1) =
        (msgs ++ [assistantOf (model msgs)], 1,
          some (pyStrip ((model msgs).content.getD ""))) := by
    intro msgs n h
    simp only [agentRun]
    rw [h]
  refine ⟨?_, ?_, himm, ?_, ?_⟩
  · intro msgs n
    induction n generalizing msgs with
    | zero => exact Nat.le_refl 0
    | succ n ih =>
      simp only [agentRun]
      cases h : (model msgs).tool_calls with
      | none =>
        show 1 ≤ n + 1
        omega
      | some tcs =>
        cases tcs with
        | nil =>
          show 1 ≤ n + 1
          omega
        | cons tc rest =>
          have := ih ((msgs ++ [assistantOf (model msgs)]) ++
            toolMessages impls parseArgs (tc :: rest))
          show (agentRun model impls parseArgs
            ((msgs ++ [assistantOf (model msgs)]) ++
              toolMessages impls parseArgs (tc :: rest)) n).2.1 + 1 ≤ n + 1
          omega
  · intro msgs n
    induction n generalizing msgs with
    | zero => intro h; omega
    | succ n ih =>
      intro hk
      simp only [agentRun] at hk ⊢
      cases h : (model msgs).tool_calls with
      | none =>
        exact ⟨model msgs, Or.inl h, rfl, List.getLast?_concat msgs⟩
      | some tcs =>
        cases tcs with
        | nil =>
          exact ⟨model msgs, Or.inr h, rfl, List.getLast?_concat msgs⟩
        | cons tc rest =>
          rw [h] at hk
          replace hk : (agentRun model impls parseArgs
              ((msgs ++ [assistantOf (model msgs)]) ++
                toolMessages impls parseArgs (tc :: rest)) n).2.1 + 1 < n + 1 := hk
          exact ih _ (by omega)
  · intro sysM userM n h
    rw [himm [sysM, userM] n h]
    rfl
  · intro env user_text file_paths system_prompt maxSteps content hb h
    unfold run_research
    rw [hb]
    show (agentRun model impls parseArgs [sysMsgOf system_prompt, userMsgOf content]
      (maxSteps + 1)).2.2 = _
    rw [himm [sysMsgOf system_prompt, userMsgOf content] maxSteps h]

/-- Witness for C7: a model that answers "  4  " directly with no tool
calls, starting from a concrete system and user message, budget 10. -/
theorem no_toolcalls_terminal_witness :
    agentRun (fun _ => ⟨some "  4  ", none⟩) (fun _ => none) (fun _ => none)
      [sysMsgOf none, userMsgOf [ContentBlock.text "q"]] 10 =
      ([sysMsgOf none, userMsgOf [ContentBlock.text "q"],
        assistantOf ((fun _ => (⟨some "  4  ", none⟩ : ModelMsg))
          [sysMsgOf none, userMsgOf [ContentBlock.text "q"]])], 1,
        some (pyStrip (((fun _ => (⟨some "  4  ", none⟩ : ModelMsg))
          [sysMsgOf none, userMsgOf [ContentBlock.text "q"]]).content.getD ""))) :=
  (no_toolcalls_terminal (fun _ => ⟨some "  4  ", none⟩) (fun _ => none)
    (fun _ => none)).2.2.2.1 (sysMsgOf none) (userMsgOf [ContentBlock.text "q"]) 9 rfl

theorem exhaustRead_getLast (l : List ChatMsg) (m : ChatMsg) (h : l.getLast? = some m) :
    exhaustRead l = readMsg m := by
  unfold exhaustRead
  rw [h]

theorem getLast_append_toolMsgs (impls : String → Option ToolImpl)
    (parseArgs : String → Option Args) :
    ∀ (ts : List ToolCall) (t : ToolCall) (xs : List ChatMsg),
      ∃ tc, (xs ++ toolMessages impls parseArgs (t :: ts)).getLast? =
        some (toolMsgFor impls parseArgs tc) := by
  intro ts
  induction ts with
  | nil =>
    intro t xs
    exact ⟨t, by simp [toolMessages, List.getLast?_concat]⟩
  | cons t2 ts ih =>
    intro t xs
    obtain ⟨tc, htc⟩ := ih t2 (xs ++ [toolMsgFor impls parseArgs t])
    refine ⟨tc, ?_⟩
    rw [← htc]
    congr 1
    simp [toolMessages]

/-- Claim C1 (amended): if every model reply requests at least one tool
call, the loop makes exactly the configured number of model calls and the
result is the step-limit read of the final conversation: the stripped
content of its last message — the tool-result message of the last requested
call, not the assistant content — with "Max steps reached." substituted
only when that content is the empty string.  The returned string exists
(for a positive budget) but may be empty after stripping. -/
theorem step_limit_exhaustion (model : List ChatMsg → ModelMsg)
    (impls : String → Option ToolImpl) (parseArgs : String → Option Args)
    (H : ∀ msgs, ∃ tc rest, (model msgs).tool_calls = some (tc :: rest)) :
    ∀ (n : Nat) (msgs : List ChatMsg),
      (agentRun model impls parseArgs msgs n).2.1 = n ∧
      (agentRun model impls parseArgs msgs n).2.2 =
        exhaustRead (agentRun model impls parseArgs msgs n).1 ∧
      (0 < n → ∃ tc : ToolCall,
        (agentRun model impls parseArgs msgs n).1.getLast? =
          some (toolMsgFor impls parseArgs tc) ∧
        (agentRun model impls parseArgs msgs n).2.2 =
          some (pyStrip (if run_tool impls tc.name ((parseArgs tc.args).getD []) = ""
            then "Max steps reached."
            else run_tool impls tc.name ((parseArgs tc.args).getD [])))) := by
  intro n
  induction n with
  | zero =>
    intro msgs
    exact ⟨rfl, rfl, by omega⟩
  | succ n ih =>
    intro msgs
    obtain ⟨tc, rest, h⟩ := H msgs
    simp only [agentRun]
    rw [h]
    obtain ⟨ihk, ihres, ihlast⟩ := ih (msgs ++ [assistantOf (model msgs)] ++
      toolMessages impls parseArgs (tc :: rest))
    refine ⟨?_, ?_, fun _ => ?_⟩
    · show (agentRun model impls parseArgs (msgs ++ [assistantOf (model msgs)] ++
        toolMessages impls parseArgs (tc :: rest)) n).2.1 + 1 = n + 1
      rw [ihk]
    · exact ihres
    · cases n with
      | zero =>
        obtain ⟨tc', htc'⟩ := getLast_append_toolMsgs impls parseArgs rest tc
          (msgs ++ [assistantOf (model msgs)])
        refine ⟨tc', htc', ?_⟩
        show exhaustRead (msgs ++ [assistantOf (model msgs)] ++
          toolMessages impls parseArgs (tc :: rest)) = _
        rw [exhaustRead_getLast _ _ htc']
        rfl
      | succ n' =>
        obtain ⟨tc', htc', hres'⟩ := ihlast (by omega)
        exact ⟨tc', htc', hres'⟩

/-- Counterexample for C1 as stated: with a budget of 1 and a model that
always requests one unknown tool while replying "thinking", the run returns
the tool-result message "Unknown tool: x" — neither the available assistant
content nor the step-limit fallback — and with a tool whose result is
whitespace, the returned string is empty. -/
theorem step_limit_counterexample :
    run_research (fun _ => ⟨some "thinking", some [⟨"1", "x", ""⟩]⟩) (fun _ => none)
      (fun _ => none) 1 (fun _ => ⟨false, .ok "", .ok "", .ok ""⟩) "q" [] none =
      some "Unknown tool: x" ∧
    "Unknown tool: x" ≠ "thinking" ∧
    "Unknown tool: x" ≠ "Max steps reached." ∧
    run_research (fun _ => ⟨some "thinking", some [⟨"1", "x", ""⟩]⟩)
      (fun _ => some (fun _ => .ok (some "   "))) (fun _ => none) 1
      (fun _ => ⟨false, .ok "", .ok "", .ok ""⟩) "q" [] none = some "" := by
  refine ⟨by decide, by decide, by decide, by decide⟩

/-- Witness for C1 (amended) with budget 2: exactly two model calls are made. -/
theorem step_limit_exhaustion_witness :
    (agentRun (fun _ => ⟨some "thinking", some [⟨"1", "x", ""⟩]⟩) (fun _ => none)
      (fun _ => none) [sysMsgOf none, userMsgOf [ContentBlock.text "q"]] 2).2.1 = 2 :=
  (step_limit_exhaustion (fun _ => ⟨some "thinking", some [⟨"1", "x", ""⟩]⟩)
    (fun _ => none) (fun _ => none) (fun _ => ⟨⟨"1", "x", ""⟩, [], rfl⟩) 2
    [sysMsgOf none, userMsgOf [ContentBlock.text "q"]]).1

end ResearchAgent
